import Mathlib

/-!
# Verification of the vector-space document retrieval engine

Shallow embedding of `my_retriever.py` (class `Retrieve`): an inverted
index (term → docid → raw frequency) is queried with a bag of words and
candidate documents are ranked by cosine similarity under one of three
term-weighting schemes (binary, tf, tfidf).

Python dictionaries are embedded as association lists, floats as real
numbers, and the `ZeroDivisionError` that `sqd / math.sqrt(ssd)` raises
when `ssd = 0` as an `Option` result (`none` = the call raises).
-/

namespace MyRetriever

/-- A posting list: the per-term mapping docid → raw frequency. -/
abbrev Postings := List (Nat × Nat)

/-- The inverted index: term → posting list. -/
abbrev Index := List (String × Postings)

/-- A query: term → frequency. -/
abbrev Query := List (String × Nat)

/-- Dictionary lookup `index[term]` (`None` when the key is absent). -/
def lookupTerm (idx : Index) (t : String) : Option Postings :=
  (idx.find? (fun e => e.1 == t)).map (·.2)

/-- Python's `term in self.index`. -/
def hasTerm (idx : Index) (t : String) : Bool :=
  (lookupTerm idx t).isSome

/-- Dictionary lookup `postings[docid]`. -/
def postingFreq (ps : Postings) (d : Nat) : Option Nat :=
  (ps.find? (fun e => e.1 == d)).map (·.2)

/-- `postings.keys()`: the docids of a posting list. -/
def postingDocids (ps : Postings) : List Nat :=
  ps.map (·.1)

/-- `Retrieve.__findRelated`: the docids appearing in the posting list of at
least one query term; query terms absent from the index are skipped.  The
Python code accumulates a `set`; we return a duplicate-free list. -/
def findRelated (idx : Index) (q : Query) : List Nat :=
  (q.flatMap (fun e =>
    match lookupTerm idx e.1 with
    | some ps => postingDocids ps
    | none => [])).dedup

/-- `Retrieve.__binaryWeighting`: weight 1 regardless of frequency. -/
noncomputable def binaryWeighting (_t : String) (_f : Nat) : ℝ :=
  1

/-- `Retrieve.__tfWeighting`: the raw frequency as weight. -/
noncomputable def tfWeighting (_t : String) (f : Nat) : ℝ :=
  (f : ℝ)

/-- The collection size: the number of distinct documents appearing anywhere
in the index (the `docSet` computed lazily by `Retrieve.__tfidfWeighting`). -/
def collectionSizeOf (idx : Index) : Nat :=
  ((idx.flatMap (fun e => postingDocids e.2)).dedup).length

/-- `len(self.index[term])`: the number of documents containing `term`
(0 as a junk value when `term` is absent — the Python code would raise
`KeyError`, and the engine only calls this on indexed terms). -/
def documentFrequency (idx : Index) (t : String) : Nat :=
  match lookupTerm idx t with
  | some ps => ps.length
  | none => 0

/-- `Retrieve.__tfidfWeighting`, with the collection size freshly computed
from the index (what the lazy cache holds after construction or after
`resetCollectionSize`): `freq * log(collectionSize / documentFrequency)`. -/
noncomputable def tfidfWeighting (idx : Index) (t : String) (f : Nat) : ℝ :=
  (f : ℝ) * Real.log ((collectionSizeOf idx : ℝ) / (documentFrequency idx t : ℝ))

/-- The accumulated sum-of-squares `ssdDict[docid]` of a document's term
weights: scan the whole index and add `w(term, freq)²` for every posting of
docid `d`. -/
noncomputable def ssd (w : String → Nat → ℝ) (idx : Index) (d : Nat) : ℝ :=
  (idx.map (fun e =>
    (((e.2.filter (fun p => p.1 == d)).map (fun p => w e.1 p.2 * w e.1 p.2))).sum)).sum

/-- The accumulated query–document dot product `sqd`: for each query term
present in the index whose posting list contains docid `d`, add
`w(term, queryFreq) * w(term, docFreq)`. -/
noncomputable def sqd (w : String → Nat → ℝ) (idx : Index) (q : Query) (d : Nat) : ℝ :=
  (q.map (fun e =>
    match lookupTerm idx e.1 with
    | none => 0
    | some ps =>
      match postingFreq ps d with
      | none => 0
      | some f => w e.1 e.2 * w e.1 f)).sum

/-- The cosine similarity `sim = sqd / math.sqrt(ssdDict[docid])` assigned to
a candidate document (only meaningful when `ssd ≠ 0`; Python raises there). -/
noncomputable def sim (w : String → Nat → ℝ) (idx : Index) (q : Query) (d : Nat) : ℝ :=
  sqd w idx q d / Real.sqrt (ssd w idx d)

/-- The comparator of `docsSimilarity.sort(key=lambda i: i[1], reverse=True)`:
descending similarity. -/
def simGE (a b : Nat × ℝ) : Prop :=
  b.2 ≤ a.2

noncomputable instance : DecidableRel simGE :=
  fun _ _ => Classical.dec _

instance : IsTotal (Nat × ℝ) simGE :=
  ⟨fun a b => le_total b.2 a.2⟩

instance : IsTrans (Nat × ℝ) simGE :=
  ⟨fun _ _ _ h h' => le_trans h' h⟩

open Classical in
/-- `Retrieve.__rankByCosSim`: find the candidates, score each by cosine
similarity, sort descending by score and return the docids.  When some
candidate has a zero sum-of-squares, `sqd / math.sqrt(0)` raises
`ZeroDivisionError` in Python; this is modelled by returning `none`. -/
noncomputable def rankByCosSim (w : String → Nat → ℝ) (idx : Index) (q : Query) :
    Option (List Nat) :=
  if ∀ d ∈ findRelated idx q, ssd w idx d ≠ 0 then
    some ((((findRelated idx q).map (fun d => (d, sim w idx q d))).insertionSort simGE).map (·.1))
  else
    none

/-- `Retrieve.forQuery`: dispatch on the weighting-scheme label; any
unrecognized label falls back to binary weighting (after printing a
warning, see `forQueryWarns`). -/
noncomputable def forQuery (idx : Index) (tw : String) (q : Query) :
    Option (List Nat) :=
  if tw = "binary" then rankByCosSim binaryWeighting idx q
  else if tw = "tf" then rankByCosSim tfWeighting idx q
  else if tw = "tfidf" then rankByCosSim (tfidfWeighting idx) idx q
  else rankByCosSim binaryWeighting idx q

/-- Whether `forQuery` prints the invalid-weighting-method warning: exactly
when the label is none of `binary`, `tf`, `tfidf`. -/
def forQueryWarns (tw : String) : Bool :=
  !(tw == "binary" || tw == "tf" || tw == "tfidf")

/-- The mutable state of a `Retrieve` object.  Python object identity
(`id(self.index)`) is modelled by tagging the index instance with a
natural-number token; `collectionSize` and `collectionSizeTarget` use the
sentinel `-1`, hence are integers. -/
structure Retrieve where
  indexToken : Nat
  index : Index
  termWeighting : String
  collectionSize : Int
  collectionSizeTarget : Int

/-- `Retrieve.resetCollectionSize`: reset both cache fields to `-1`. -/
def resetCollectionSize (r : Retrieve) : Retrieve :=
  { r with collectionSize := -1, collectionSizeTarget := -1 }

/-- `Retrieve.__init__`: store index and scheme, then reset the cache. -/
def initRetrieve (tok : Nat) (idx : Index) (tw : String) : Retrieve :=
  resetCollectionSize
    { indexToken := tok, index := idx, termWeighting := tw,
      collectionSize := -1, collectionSizeTarget := -1 }

/-- The lazy-initialization step at the head of `Retrieve.__tfidfWeighting`:
if the stored identity token differs from the current index instance's
token, recompute the collection size and store the token; otherwise leave
the state untouched. -/
def tfidfInit (r : Retrieve) : Retrieve :=
  if r.collectionSizeTarget ≠ (r.indexToken : Int) then
    { r with collectionSize := (collectionSizeOf r.index : Int),
             collectionSizeTarget := (r.indexToken : Int) }
  else
    r

/-- The stateful `Retrieve.__tfidfWeighting`: touch the lazy cache, then
weigh using the cached collection size.  Returns the weight and the updated
state. -/
noncomputable def tfidfWeightingSt (r : Retrieve) (t : String) (f : Nat) :
    ℝ × Retrieve :=
  let r' := tfidfInit r
  ((f : ℝ) * Real.log ((r'.collectionSize : ℝ) / (documentFrequency r'.index t : ℝ)), r')

/-- A docid is a candidate for a query when it appears in the posting list
of at least one query term (the spec's candidate notion). -/
def isCandidate (idx : Index) (q : Query) (d : Nat) : Prop :=
  ∃ e ∈ q, ∃ ps, lookupTerm idx e.1 = some ps ∧ d ∈ postingDocids ps

/-- The weighting callback `forQuery` dispatches to for a given label. -/
noncomputable def weightingOf (idx : Index) (tw : String) : String → Nat → ℝ :=
  if tw = "binary" then binaryWeighting
  else if tw = "tf" then tfWeighting
  else if tw = "tfidf" then tfidfWeighting idx
  else binaryWeighting

/-! ## Basic lemmas about the embedding -/

lemma forQuery_eq_rank (idx : Index) (tw : String) (q : Query) :
    forQuery idx tw q = rankByCosSim (weightingOf idx tw) idx q := by
  unfold forQuery weightingOf
  by_cases h1 : tw = "binary" <;> by_cases h2 : tw = "tf" <;>
    by_cases h3 : tw = "tfidf" <;> simp [h1, h2, h3]

lemma lookupTerm_cons (s : String) (ps : Postings) (idx : Index) (t : String) :
    lookupTerm ((s, ps) :: idx) t = if s == t then some ps else lookupTerm idx t := by
  unfold lookupTerm
  by_cases h : (s == t) = true
  · simp [List.find?_cons, h]
  · rw [Bool.not_eq_true] at h
    simp [List.find?_cons, h]

lemma lookupTerm_mem {idx : Index} {t : String} {ps : Postings}
    (h : lookupTerm idx t = some ps) : (t, ps) ∈ idx := by
  unfold lookupTerm at h
  cases hf : idx.find? (fun e => e.1 == t) with
  | none => rw [hf] at h; cases h
  | some e =>
    rw [hf] at h
    have he := List.mem_of_find?_eq_some hf
    have hp := List.find?_some hf
    obtain ⟨a, b⟩ := e
    simp only [Option.map_some', Option.some.injEq] at h
    simp only [beq_iff_eq] at hp
    subst hp
    subst h
    exact he

lemma hasTerm_false_iff {idx : Index} {t : String} :
    hasTerm idx t = false ↔ lookupTerm idx t = none := by
  unfold hasTerm
  cases h : lookupTerm idx t <;> simp

lemma mem_findRelated {idx : Index} {q : Query} {d : Nat} :
    d ∈ findRelated idx q ↔ isCandidate idx q d := by
  unfold findRelated isCandidate
  rw [List.mem_dedup, List.mem_flatMap]
  constructor
  · rintro ⟨e, he, hd⟩
    refine ⟨e, he, ?_⟩
    cases h : lookupTerm idx e.1 with
    | none => rw [h] at hd; cases hd
    | some ps => rw [h] at hd; exact ⟨ps, rfl, hd⟩
  · rintro ⟨e, he, ps, hps, hd⟩
    exact ⟨e, he, by rw [hps]; exact hd⟩

lemma rank_some_elim {w : String → Nat → ℝ} {idx : Index} {q : Query} {l : List Nat}
    (h : rankByCosSim w idx q = some l) :
    (∀ d ∈ findRelated idx q, ssd w idx d ≠ 0) ∧
    l = (((findRelated idx q).map (fun d => (d, sim w idx q d))).insertionSort simGE).map (·.1) := by
  unfold rankByCosSim at h
  by_cases hc : ∀ d ∈ findRelated idx q, ssd w idx d ≠ 0
  · rw [if_pos hc] at h
    exact ⟨hc, (Option.some_inj.mp h).symm⟩
  · rw [if_neg hc] at h
    cases h

lemma rank_some_of_cond {w : String → Nat → ℝ} {idx : Index} {q : Query}
    (hc : ∀ d ∈ findRelated idx q, ssd w idx d ≠ 0) :
    rankByCosSim w idx q =
      some ((((findRelated idx q).map (fun d => (d, sim w idx q d))).insertionSort simGE).map (·.1)) := by
  unfold rankByCosSim
  rw [if_pos hc]

lemma rank_none_of_zero {w : String → Nat → ℝ} {idx : Index} {q : Query}
    (h : ∃ d ∈ findRelated idx q, ssd w idx d = 0) :
    rankByCosSim w idx q = none := by
  unfold rankByCosSim
  rw [if_neg]
  push_neg
  exact h

lemma map_fst_pair (l : List Nat) (g : Nat → ℝ) :
    (l.map (fun d => (d, g d))).map (fun p => p.1) = l := by
  induction l with
  | nil => rfl
  | cons a l ih => simp [ih]

lemma rank_perm {w : String → Nat → ℝ} {idx : Index} {q : Query} {l : List Nat}
    (h : rankByCosSim w idx q = some l) :
    l.Perm (findRelated idx q) := by
  obtain ⟨-, rfl⟩ := rank_some_elim h
  have hp :=
    (List.perm_insertionSort simGE
      ((findRelated idx q).map (fun d => (d, sim w idx q d)))).map
      (fun p : Nat × ℝ => p.1)
  rw [map_fst_pair] at hp
  exact hp

lemma rank_nil {w : String → Nat → ℝ} {idx : Index} {q : Query}
    (h : findRelated idx q = []) :
    rankByCosSim w idx q = some [] := by
  unfold rankByCosSim
  rw [h]
  rw [if_pos (by intro d hd; cases hd)]
  rfl

lemma findRelated_nil_of_absent {idx : Index} {q : Query}
    (h : ∀ e ∈ q, hasTerm idx e.1 = false) :
    findRelated idx q = [] := by
  unfold findRelated
  have : q.flatMap (fun e =>
      match lookupTerm idx e.1 with
      | some ps => postingDocids ps
      | none => []) = [] := by
    induction q with
    | nil => rfl
    | cons e q ih =>
      rw [List.flatMap_cons]
      have he := hasTerm_false_iff.mp (h e (List.mem_cons_self e q))
      rw [he, ih (fun x hx => h x (List.mem_cons_of_mem e hx))]
      rfl
  rw [this]
  rfl

lemma sorted_map_fst {g : Nat → ℝ} {s : List (Nat × ℝ)}
    (hsorted : List.Sorted simGE s)
    (hval : ∀ p ∈ s, p.2 = g p.1)
    (i j : Fin (s.map (fun p => p.1)).length) (hij : i < j) :
    g ((s.map (fun p => p.1)).get j) ≤ g ((s.map (fun p => p.1)).get i) := by
  have hlen : (s.map (fun p => p.1)).length = s.length := List.length_map _ _
  have hi : (i : Nat) < s.length := hlen ▸ i.isLt
  have hj : (j : Nat) < s.length := hlen ▸ j.isLt
  have hrel := List.Sorted.rel_get_of_lt hsorted (a := ⟨i, hi⟩) (b := ⟨j, hj⟩) hij
  have hgi : (s.map (fun p => p.1)).get i = (s.get ⟨i, hi⟩).1 := by
    simp [List.get_eq_getElem]
  have hgj : (s.map (fun p => p.1)).get j = (s.get ⟨j, hj⟩).1 := by
    simp [List.get_eq_getElem]
  rw [hgi, hgj, ← hval _ (s.get_mem _ _), ← hval _ (s.get_mem _ _)]
  exact hrel

lemma rank_sorted {w : String → Nat → ℝ} {idx : Index} {q : Query} {l : List Nat}
    (h : rankByCosSim w idx q = some l)
    (i j : Fin l.length) (hij : i < j) :
    sim w idx q (l.get j) ≤ sim w idx q (l.get i) := by
  obtain ⟨-, hl⟩ := rank_some_elim h
  subst hl
  apply sorted_map_fst (List.sorted_insertionSort simGE _) ?_ i j hij
  intro p hp
  have hmem := (List.perm_insertionSort simGE _).mem_iff.mp hp
  obtain ⟨d, _, rfl⟩ := List.mem_map.mp hmem
  rfl

lemma rank_congr {w₁ w₂ : String → Nat → ℝ} {idx₁ idx₂ : Index} {q₁ q₂ : Query}
    (hf : findRelated idx₁ q₁ = findRelated idx₂ q₂)
    (hs : ∀ d, ssd w₁ idx₁ d = ssd w₂ idx₂ d)
    (hm : ∀ d, sim w₁ idx₁ q₁ d = sim w₂ idx₂ q₂ d) :
    rankByCosSim w₁ idx₁ q₁ = rankByCosSim w₂ idx₂ q₂ := by
  unfold rankByCosSim
  rw [hf]
  by_cases hc : ∀ d ∈ findRelated idx₂ q₂, ssd w₂ idx₂ d ≠ 0
  · rw [if_pos hc, if_pos (fun d hd => by rw [hs]; exact hc d hd)]
    have hmap : (findRelated idx₂ q₂).map (fun d => (d, sim w₁ idx₁ q₁ d)) =
        (findRelated idx₂ q₂).map (fun d => (d, sim w₂ idx₂ q₂ d)) :=
      List.map_congr_left (fun d _ => by rw [hm])
    rw [hmap]
  · rw [if_neg (fun hcon => hc (fun d hd => by rw [← hs]; exact hcon d hd)), if_neg hc]

lemma findRelated_filter (idx : Index) (q : Query) :
    findRelated idx (q.filter (fun e => hasTerm idx e.1)) = findRelated idx q := by
  unfold findRelated
  congr 1
  induction q with
  | nil => rfl
  | cons e q ih =>
    cases h : hasTerm idx e.1 with
    | true => simp only [List.filter_cons, h, if_true, List.flatMap_cons, ih]
    | false =>
      simp only [List.filter_cons, h, Bool.false_eq_true, if_false, ih,
        List.flatMap_cons, hasTerm_false_iff.mp h]
      rfl

lemma sqd_filter (w : String → Nat → ℝ) (idx : Index) (q : Query) (d : Nat) :
    sqd w idx (q.filter (fun e => hasTerm idx e.1)) d = sqd w idx q d := by
  unfold sqd
  induction q with
  | nil => rfl
  | cons e q ih =>
    cases h : hasTerm idx e.1 with
    | true =>
      simp only [List.filter_cons, h, if_true, List.map_cons, List.sum_cons, ih]
    | false =>
      simp only [List.filter_cons, h, Bool.false_eq_true, if_false, ih,
        List.map_cons, List.sum_cons, hasTerm_false_iff.mp h]
      simp

lemma rank_filter (w : String → Nat → ℝ) (idx : Index) (q : Query) :
    rankByCosSim w idx (q.filter (fun e => hasTerm idx e.1)) = rankByCosSim w idx q :=
  rank_congr (findRelated_filter idx q) (fun _ => rfl)
    (fun d => by unfold sim; rw [sqd_filter])

lemma sum_pos_of_mem {l : List ℝ} {a : ℝ} (ha : a ∈ l) (hpos : 0 < a)
    (hnn : ∀ x ∈ l, 0 ≤ x) : 0 < l.sum := by
  obtain ⟨s, t, rfl⟩ := List.append_of_mem ha
  rw [List.sum_append, List.sum_cons]
  have hs : 0 ≤ s.sum := List.sum_nonneg (fun x hx => hnn x (by simp [hx]))
  have ht : 0 ≤ t.sum := List.sum_nonneg (fun x hx => hnn x (by simp [hx]))
  linarith

lemma ssd_entry_nonneg (w : String → Nat → ℝ) (t : String) (ps : Postings) (d : Nat) :
    0 ≤ ((ps.filter (fun p => p.1 == d)).map (fun p => w t p.2 * w t p.2)).sum :=
  List.sum_nonneg (fun x hx => by
    obtain ⟨p, _, rfl⟩ := List.mem_map.mp hx
    exact mul_self_nonneg _)

lemma ssd_pos {w : String → Nat → ℝ} {idx : Index} {d : Nat}
    (hw : ∀ t ps, (t, ps) ∈ idx → ∀ p ∈ ps, p.1 = d → 0 < w t p.2)
    {t : String} {ps : Postings} (hmem : (t, ps) ∈ idx) (hd : d ∈ postingDocids ps) :
    0 < ssd w idx d := by
  unfold ssd
  obtain ⟨p, hp, hpd⟩ := List.mem_map.mp hd
  have hinner :
      0 < ((ps.filter (fun p => p.1 == d)).map (fun p => w t p.2 * w t p.2)).sum := by
    apply sum_pos_of_mem (a := w t p.2 * w t p.2)
    · exact List.mem_map.mpr ⟨p, List.mem_filter.mpr ⟨hp, by simp [hpd]⟩, rfl⟩
    · exact mul_pos (hw t ps hmem p hp hpd) (hw t ps hmem p hp hpd)
    · intro x hx
      obtain ⟨p', _, rfl⟩ := List.mem_map.mp hx
      exact mul_self_nonneg _
  apply sum_pos_of_mem
    (a := ((ps.filter (fun p => p.1 == d)).map (fun p => w t p.2 * w t p.2)).sum)
  · exact List.mem_map.mpr ⟨(t, ps), hmem, rfl⟩
  · exact hinner
  · intro x hx
    obtain ⟨e, _, rfl⟩ := List.mem_map.mp hx
    exact ssd_entry_nonneg w e.1 e.2 d

lemma candidate_entry {idx : Index} {q : Query} {d : Nat}
    (h : d ∈ findRelated idx q) :
    ∃ t ps, (t, ps) ∈ idx ∧ d ∈ postingDocids ps := by
  obtain ⟨e, _, ps, hl, hd⟩ := mem_findRelated.mp h
  exact ⟨e.1, ps, lookupTerm_mem hl, hd⟩

/-! ## A concrete run: `{"cat": {1: 2, 2: 1}, "dog": {2: 3}}`, query `{"cat": 1}` -/

def exIndex : Index :=
  [("cat", [(1, 2), (2, 1)]), ("dog", [(2, 3)])]

def exQuery : Query :=
  [("cat", 1)]

lemma exFind : findRelated exIndex exQuery = [1, 2] := by
  decide

lemma exSsd1 : ssd binaryWeighting exIndex 1 = 1 := by
  simp [ssd, exIndex, binaryWeighting, List.filter_cons]

lemma exSsd2 : ssd binaryWeighting exIndex 2 = 2 := by
  simp [ssd, exIndex, binaryWeighting, List.filter_cons]
  norm_num

lemma exSqd1 : sqd binaryWeighting exIndex exQuery 1 = 1 := by
  simp [sqd, exIndex, exQuery, binaryWeighting, lookupTerm, postingFreq,
    List.find?_cons]

lemma exSqd2 : sqd binaryWeighting exIndex exQuery 2 = 1 := by
  simp [sqd, exIndex, exQuery, binaryWeighting, lookupTerm, postingFreq,
    List.find?_cons]

lemma exSim1 : sim binaryWeighting exIndex exQuery 1 = 1 := by
  unfold sim
  rw [exSsd1, exSqd1, Real.sqrt_one, div_one]

lemma exSim2 : sim binaryWeighting exIndex exQuery 2 = 1 / Real.sqrt 2 := by
  unfold sim
  rw [exSsd2, exSqd2]

lemma exSim2_le_exSim1 :
    sim binaryWeighting exIndex exQuery 2 ≤ sim binaryWeighting exIndex exQuery 1 := by
  rw [exSim1, exSim2]
  have h2 : (1 : ℝ) ≤ Real.sqrt 2 := by
    rw [show (1 : ℝ) = Real.sqrt 1 from Real.sqrt_one.symm]
    exact Real.sqrt_le_sqrt (by norm_num)
  calc 1 / Real.sqrt 2 ≤ 1 / 1 := by
        apply div_le_div_of_nonneg_left (by norm_num) (by norm_num) h2
    _ = 1 := by norm_num

lemma exRank : rankByCosSim binaryWeighting exIndex exQuery = some [1, 2] := by
  have hcond : ∀ d ∈ findRelated exIndex exQuery, ssd binaryWeighting exIndex d ≠ 0 := by
    rw [exFind]
    intro d hd
    rcases List.mem_cons.mp hd with rfl | hd'
    · rw [exSsd1]; norm_num
    · rcases List.mem_cons.mp hd' with rfl | hd''
      · rw [exSsd2]; norm_num
      · cases hd''
  rw [rank_some_of_cond hcond, exFind]
  have hsort :
      (([1, 2].map (fun d => (d, sim binaryWeighting exIndex exQuery d))).insertionSort simGE) =
      [(1, sim binaryWeighting exIndex exQuery 1), (2, sim binaryWeighting exIndex exQuery 2)] := by
    simp only [List.map_cons, List.map_nil, List.insertionSort, List.orderedInsert]
    rw [if_pos]
    exact exSim2_le_exSim1
  rw [hsort]
  rfl

lemma exForQuery : forQuery exIndex "binary" exQuery = some [1, 2] := by
  unfold forQuery
  rw [if_pos rfl]
  exact exRank

/-! ## A degenerate TF-IDF run: every term of the only candidate has
document frequency equal to the collection size -/

def zIndex : Index :=
  [("cat", [(1, 1)])]

def zQuery : Query :=
  [("cat", 1)]

lemma zFind : findRelated zIndex zQuery = [1] := by
  decide

lemma zColl : collectionSizeOf zIndex = 1 := by
  decide

lemma zDf : documentFrequency zIndex "cat" = 1 := by
  decide

lemma zW (f : Nat) : tfidfWeighting zIndex "cat" f = 0 := by
  unfold tfidfWeighting
  rw [zColl, zDf]
  norm_num

lemma zSsd_gen (w : String → Nat → ℝ) : ssd w zIndex 1 = w "cat" 1 * w "cat" 1 := by
  simp [ssd, zIndex, List.filter_cons]

lemma zSsd : ssd (tfidfWeighting zIndex) zIndex 1 = 0 := by
  rw [zSsd_gen, zW, mul_zero]

lemma zRank : rankByCosSim (tfidfWeighting zIndex) zIndex zQuery = none :=
  rank_none_of_zero ⟨1, by rw [zFind]; exact List.mem_singleton.mpr rfl, zSsd⟩

lemma zForQuery : forQuery zIndex "tfidf" zQuery = none := by
  unfold forQuery
  rw [if_neg (by decide), if_neg (by decide), if_pos rfl]
  exact zRank

/-! ## Binary weighting ignores frequency magnitudes -/

/-- The structure of an index with the raw frequencies erased: its term
sequence together with each posting list's docid sequence. -/
def stripFreqs (idx : Index) : List (String × List Nat) :=
  idx.map (fun e => (e.1, postingDocids e.2))

lemma strip_lookup {idx₁ idx₂ : Index} (h : stripFreqs idx₁ = stripFreqs idx₂)
    (t : String) :
    (lookupTerm idx₁ t).map postingDocids = (lookupTerm idx₂ t).map postingDocids := by
  induction idx₁ generalizing idx₂ with
  | nil =>
    cases idx₂ with
    | nil => rfl
    | cons e l => simp [stripFreqs] at h
  | cons e₁ l₁ ih =>
    cases idx₂ with
    | nil => simp [stripFreqs] at h
    | cons e₂ l₂ =>
      obtain ⟨s₁, ps₁⟩ := e₁
      obtain ⟨s₂, ps₂⟩ := e₂
      simp only [stripFreqs, List.map_cons, List.cons.injEq, Prod.mk.injEq] at h
      obtain ⟨⟨hs, hds⟩, htail⟩ := h
      subst hs
      rw [lookupTerm_cons, lookupTerm_cons]
      by_cases hst : (s₁ == t) = true
      · rw [if_pos hst, if_pos hst]
        simpa using hds
      · rw [if_neg hst, if_neg hst]
        exact ih htail

lemma strip_docids_match {idx₁ idx₂ : Index} {t : String}
    (h : (lookupTerm idx₁ t).map postingDocids = (lookupTerm idx₂ t).map postingDocids) :
    (match lookupTerm idx₁ t with
     | some ps => postingDocids ps
     | none => ([] : List Nat)) =
    (match lookupTerm idx₂ t with
     | some ps => postingDocids ps
     | none => ([] : List Nat)) := by
  cases h₁ : lookupTerm idx₁ t <;> cases h₂ : lookupTerm idx₂ t <;>
    rw [h₁, h₂] at h <;> simp_all

lemma strip_findRelated {idx₁ idx₂ : Index} (h : stripFreqs idx₁ = stripFreqs idx₂)
    (q : Query) :
    findRelated idx₁ q = findRelated idx₂ q := by
  unfold findRelated
  congr 1
  induction q with
  | nil => rfl
  | cons e q ih =>
    rw [List.flatMap_cons, List.flatMap_cons, ih,
      strip_docids_match (strip_lookup h e.1)]

lemma binary_entry_sum (t : String) (ps : Postings) (d : Nat) :
    ((ps.filter (fun p => p.1 == d)).map
      (fun p => binaryWeighting t p.2 * binaryWeighting t p.2)).sum =
    ((((postingDocids ps).filter (fun x => x == d)).length : ℕ) : ℝ) := by
  induction ps with
  | nil => simp [postingDocids]
  | cons p ps ih =>
    cases h : (p.1 == d) with
    | true =>
      simp only [postingDocids, List.map_cons, binaryWeighting, one_mul] at ih ⊢
      simp only [List.filter_cons, h, if_true, List.map_cons, List.sum_cons, ih,
        List.length_cons]
      push_cast
      ring
    | false =>
      simp only [postingDocids, List.map_cons] at ih ⊢
      simp only [List.filter_cons, h, Bool.false_eq_true, if_false, ih]

lemma ssd_binary_strip (idx : Index) (d : Nat) :
    ssd binaryWeighting idx d =
      ((stripFreqs idx).map
        (fun e => (((e.2.filter (fun x => x == d)).length : ℕ) : ℝ))).sum := by
  unfold ssd stripFreqs
  rw [List.map_map]
  apply congrArg List.sum
  apply List.map_congr_left
  intro e _
  exact binary_entry_sum e.1 e.2 d

lemma strip_ssd {idx₁ idx₂ : Index} (h : stripFreqs idx₁ = stripFreqs idx₂) (d : Nat) :
    ssd binaryWeighting idx₁ d = ssd binaryWeighting idx₂ d := by
  rw [ssd_binary_strip, ssd_binary_strip, h]

lemma postingFreq_none_iff {ps : Postings} {d : Nat} :
    postingFreq ps d = none ↔ d ∉ postingDocids ps := by
  unfold postingFreq postingDocids
  rw [Option.map_eq_none', List.find?_eq_none]
  constructor
  · intro h hc
    obtain ⟨p, hp, hpd⟩ := List.mem_map.mp hc
    exact h p hp (by simp [hpd])
  · intro h p hp hpd
    simp only [beq_iff_eq] at hpd
    exact h (hpd ▸ List.mem_map_of_mem _ hp)

lemma binary_dot_entry (idx : Index) (t : String) (a : Nat) (d : Nat) :
    (match lookupTerm idx t with
     | none => (0 : ℝ)
     | some ps =>
       match postingFreq ps d with
       | none => (0 : ℝ)
       | some f => binaryWeighting t a * binaryWeighting t f) =
    (match (lookupTerm idx t).map postingDocids with
     | none => (0 : ℝ)
     | some ds => if d ∈ ds then (1 : ℝ) else 0) := by
  cases hl : lookupTerm idx t with
  | none => rfl
  | some ps =>
    simp only [Option.map_some']
    cases hf : postingFreq ps d with
    | none =>
      have hd : d ∉ postingDocids ps := postingFreq_none_iff.mp hf
      simp [hd]
    | some f =>
      have hd : d ∈ postingDocids ps := by
        by_contra hc
        rw [← postingFreq_none_iff] at hc
        rw [hc] at hf
        cases hf
      simp [hd, binaryWeighting]

lemma sqd_binary_strip (idx : Index) (q : Query) (d : Nat) :
    sqd binaryWeighting idx q d =
      (q.map (fun e =>
        match (lookupTerm idx e.1).map postingDocids with
        | none => (0 : ℝ)
        | some ds => if d ∈ ds then (1 : ℝ) else 0)).sum := by
  unfold sqd
  apply congrArg List.sum
  apply List.map_congr_left
  intro e _
  exact binary_dot_entry idx e.1 e.2 d

lemma strip_sqd {idx₁ idx₂ : Index} (h : stripFreqs idx₁ = stripFreqs idx₂)
    (q : Query) (d : Nat) :
    sqd binaryWeighting idx₁ q d = sqd binaryWeighting idx₂ q d := by
  rw [sqd_binary_strip, sqd_binary_strip]
  apply congrArg List.sum
  apply List.map_congr_left
  intro e _
  rw [strip_lookup h e.1]

lemma strip_sim {idx₁ idx₂ : Index} (h : stripFreqs idx₁ = stripFreqs idx₂)
    (q : Query) (d : Nat) :
    sim binaryWeighting idx₁ q d = sim binaryWeighting idx₂ q d := by
  unfold sim
  rw [strip_ssd h, strip_sqd h]

lemma strip_rank {idx₁ idx₂ : Index} (h : stripFreqs idx₁ = stripFreqs idx₂)
    (q : Query) :
    rankByCosSim binaryWeighting idx₁ q = rankByCosSim binaryWeighting idx₂ q :=
  rank_congr (strip_findRelated h q) (strip_ssd h) (strip_sim h q)

/-! ## TF-IDF support -/

lemma collectionSize_pos {idx : Index} {t : String} {ps : Postings}
    (h : lookupTerm idx t = some ps) (hne : ps ≠ []) :
    0 < collectionSizeOf idx := by
  obtain ⟨p, hp⟩ := List.exists_mem_of_ne_nil ps hne
  have hmem : (t, ps) ∈ idx := lookupTerm_mem h
  have hin : p.1 ∈ idx.flatMap (fun e => postingDocids e.2) :=
    List.mem_flatMap.mpr ⟨(t, ps), hmem, List.mem_map_of_mem _ hp⟩
  unfold collectionSizeOf
  exact List.length_pos.mpr (List.ne_nil_of_mem (List.mem_dedup.mpr hin))

lemma weightingOf_binary (idx : Index) : weightingOf idx "binary" = binaryWeighting := by
  unfold weightingOf
  rw [if_pos rfl]

lemma weightingOf_tf (idx : Index) : weightingOf idx "tf" = tfWeighting := by
  unfold weightingOf
  rw [if_neg (by decide), if_pos rfl]

lemma weightingOf_tfidf (idx : Index) : weightingOf idx "tfidf" = tfidfWeighting idx := by
  unfold weightingOf
  rw [if_neg (by decide), if_neg (by decide), if_pos rfl]

/-! ## The claims -/

/-- C1: every docid in the sequence returned by `forQuery` is a candidate
(appears in the posting list of at least one query term); query terms
absent from the index contribute nothing to candidates or scores; an empty
query, or one whose terms are all absent from the index, yields the empty
sequence rather than an error. -/
theorem forQuery_candidates_only (idx : Index) (tw : String) (q : Query) :
    (∀ l, forQuery idx tw q = some l → ∀ d ∈ l, isCandidate idx q d)
    ∧ forQuery idx tw (q.filter (fun e => hasTerm idx e.1)) = forQuery idx tw q
    ∧ (q = [] → forQuery idx tw q = some [])
    ∧ ((∀ e ∈ q, hasTerm idx e.1 = false) → forQuery idx tw q = some []) := by
  refine ⟨?_, ?_, ?_, ?_⟩
  · intro l hl d hd
    rw [forQuery_eq_rank] at hl
    exact mem_findRelated.mp ((rank_perm hl).mem_iff.mp hd)
  · rw [forQuery_eq_rank, forQuery_eq_rank]
    exact rank_filter _ idx q
  · rintro rfl
    rw [forQuery_eq_rank]
    exact rank_nil rfl
  · intro h
    rw [forQuery_eq_rank]
    exact rank_nil (findRelated_nil_of_absent h)

theorem forQuery_candidates_only_witness :
    (∀ d ∈ ([1, 2] : List Nat), isCandidate exIndex exQuery d)
    ∧ forQuery exIndex "binary" [] = some [] :=
  ⟨fun d hd => (forQuery_candidates_only exIndex "binary" exQuery).1 [1, 2] exForQuery d hd,
   (forQuery_candidates_only exIndex "binary" []).2.2.1 rfl⟩

/-- C2: the sequence returned by `forQuery` is sorted in descending order of
cosine similarity: for positions `i < j`, the score of the document at `j`
is at most the score of the document at `i`. -/
theorem forQuery_sorted_desc (idx : Index) (tw : String) (q : Query) (l : List Nat)
    (h : forQuery idx tw q = some l) (i j : Fin l.length) (hij : i < j) :
    sim (weightingOf idx tw) idx q (l.get j) ≤ sim (weightingOf idx tw) idx q (l.get i) := by
  rw [forQuery_eq_rank] at h
  exact rank_sorted h i j hij

theorem forQuery_sorted_desc_witness :
    sim (weightingOf exIndex "binary") exIndex exQuery 2
      ≤ sim (weightingOf exIndex "binary") exIndex exQuery 1 := by
  have h := forQuery_sorted_desc exIndex "binary" exQuery [1, 2] exForQuery
    ⟨0, by norm_num⟩ ⟨1, by norm_num⟩ (by decide)
  simpa using h

/-- C3 (counterexample): with index `{"cat": {1: 1}}` and query `{"cat": 1}`
under TF-IDF, the only candidate's sum-of-squares is exactly zero, yet
`forQuery` does not complete normally with score 0: the division
`sqd / math.sqrt(0)` raises `ZeroDivisionError` (modelled as `none`). -/
theorem tfidf_zero_denominator_raises :
    (1 ∈ findRelated zIndex zQuery ∧ ssd (tfidfWeighting zIndex) zIndex 1 = 0)
    ∧ forQuery zIndex "tfidf" zQuery = none :=
  ⟨⟨by rw [zFind]; exact List.mem_singleton.mpr rfl, zSsd⟩, zForQuery⟩

/-- C3 (amended): under TF-IDF, when some candidate's accumulated
sum-of-squares is exactly zero, `forQuery` raises (propagates) a division
error — modelled as returning `none` — instead of assigning score 0. -/
theorem tfidf_zero_ssd_propagates (idx : Index) (q : Query)
    (h : ∃ d ∈ findRelated idx q, ssd (tfidfWeighting idx) idx d = 0) :
    forQuery idx "tfidf" q = none := by
  rw [forQuery_eq_rank, weightingOf_tfidf]
  exact rank_none_of_zero h

theorem tfidf_zero_ssd_propagates_witness :
    forQuery zIndex "tfidf" zQuery = none :=
  tfidf_zero_ssd_propagates zIndex zQuery
    ⟨1, by rw [zFind]; exact List.mem_singleton.mpr rfl, zSsd⟩

/-- C4: on index `{"cat": {1: 2, 2: 1}, "dog": {2: 3}}` with query
`{"cat": 1}` under binary weighting, the candidates are `{1, 2}`, doc 1's
norm is 1, doc 2's norm is `√2`, both dot products are 1, the scores are 1
and `1/√2`, and the ranking is `[1, 2]`. -/
theorem binary_scenario :
    findRelated exIndex exQuery = [1, 2]
    ∧ ssd binaryWeighting exIndex 1 = 1
    ∧ Real.sqrt (ssd binaryWeighting exIndex 1) = 1
    ∧ ssd binaryWeighting exIndex 2 = 2
    ∧ Real.sqrt (ssd binaryWeighting exIndex 2) = Real.sqrt 2
    ∧ sqd binaryWeighting exIndex exQuery 1 = 1
    ∧ sqd binaryWeighting exIndex exQuery 2 = 1
    ∧ sim binaryWeighting exIndex exQuery 1 = 1
    ∧ sim binaryWeighting exIndex exQuery 2 = 1 / Real.sqrt 2
    ∧ forQuery exIndex "binary" exQuery = some [1, 2] :=
  ⟨exFind, exSsd1, by rw [exSsd1, Real.sqrt_one], exSsd2, by rw [exSsd2],
   exSqd1, exSqd2, exSim1, exSim2, exForQuery⟩

/-- C5: under binary and tf weighting, when all raw frequencies are
positive, every candidate's accumulated sum-of-squares is strictly
positive, so the cosine division never divides by zero and `forQuery`
completes with a result. -/
theorem binary_tf_no_zero_division (idx : Index) (q : Query)
    (hpos : ∀ e ∈ idx, ∀ p ∈ e.2, 0 < p.2) :
    (∀ d ∈ findRelated idx q,
      0 < ssd binaryWeighting idx d ∧ 0 < ssd tfWeighting idx d)
    ∧ (∃ l, forQuery idx "binary" q = some l)
    ∧ (∃ l, forQuery idx "tf" q = some l) := by
  have hkey : ∀ d ∈ findRelated idx q,
      0 < ssd binaryWeighting idx d ∧ 0 < ssd tfWeighting idx d := by
    intro d hd
    obtain ⟨t, ps, hmem, hdd⟩ := candidate_entry hd
    constructor
    · exact ssd_pos (fun _ _ _ _ _ _ => one_pos) hmem hdd
    · refine ssd_pos ?_ hmem hdd
      intro t' ps' hm p hp _
      unfold tfWeighting
      exact_mod_cast hpos (t', ps') hm p hp
  refine ⟨hkey, ?_, ?_⟩
  · rw [forQuery_eq_rank, weightingOf_binary]
    exact ⟨_, rank_some_of_cond (fun d hd => ne_of_gt (hkey d hd).1)⟩
  · rw [forQuery_eq_rank, weightingOf_tf]
    exact ⟨_, rank_some_of_cond (fun d hd => ne_of_gt (hkey d hd).2)⟩

theorem binary_tf_no_zero_division_witness :
    (∀ e ∈ exIndex, ∀ p ∈ e.2, 0 < p.2)
    ∧ ((∀ d ∈ findRelated exIndex exQuery,
          0 < ssd binaryWeighting exIndex d ∧ 0 < ssd tfWeighting exIndex d)
       ∧ (∃ l, forQuery exIndex "binary" exQuery = some l)
       ∧ (∃ l, forQuery exIndex "tf" exQuery = some l)) :=
  ⟨by decide, binary_tf_no_zero_division exIndex exQuery (by decide)⟩

/-- C6: `resetCollectionSize` clears the lazy cache, so the next TF-IDF
computation recomputes the collection size (the count of distinct documents
in the index) from the index instance currently referenced, and the next
TF-IDF weight reflects it; the staleness test compares the stored identity
token with the current index instance's token (never the content), and a
matching token suppresses recomputation entirely. -/
theorem cache_reset_recomputes (r : Retrieve) (tok' : Nat) (idx' : Index) :
    (tfidfInit (resetCollectionSize
        { r with indexToken := tok', index := idx' })).collectionSize
      = (collectionSizeOf idx' : Int)
    ∧ (∀ t f, (tfidfWeightingSt (resetCollectionSize
        { r with indexToken := tok', index := idx' }) t f).1
      = tfidfWeighting idx' t f)
    ∧ (∀ s : Retrieve, (tfidfInit s).collectionSize =
      if s.collectionSizeTarget = (s.indexToken : Int) then s.collectionSize
      else (collectionSizeOf s.index : Int))
    ∧ (∀ s : Retrieve, s.collectionSizeTarget = (s.indexToken : Int) →
      tfidfInit s = s) := by
  refine ⟨?_, ?_, ?_, ?_⟩
  · unfold tfidfInit resetCollectionSize
    rw [if_pos (by simp)]
  · intro t f
    unfold tfidfWeightingSt tfidfInit resetCollectionSize tfidfWeighting
    rw [if_pos (by simp)]
    simp
  · intro s
    unfold tfidfInit
    by_cases h : s.collectionSizeTarget = (s.indexToken : Int)
    · rw [if_neg (not_not_intro h), if_pos h]
    · rw [if_pos h, if_neg h]
  · intro s h
    unfold tfidfInit
    rw [if_neg (not_not_intro h)]

theorem cache_reset_recomputes_witness :
    (tfidfInit (resetCollectionSize
        { initRetrieve 0 [] "tfidf" with indexToken := 5, index := exIndex })).collectionSize
      = (2 : Int)
    ∧ tfidfInit ⟨3, exIndex, "tfidf", 42, 3⟩ = ⟨3, exIndex, "tfidf", 42, 3⟩ := by
  have h := cache_reset_recomputes (initRetrieve 0 [] "tfidf") 5 exIndex
  exact ⟨by rw [h.1]; decide, h.2.2.2 ⟨3, exIndex, "tfidf", 42, 3⟩ rfl⟩

/-- C7: for any weighting label other than `binary`, `tf`, `tfidf`,
construction succeeds (storing the label), and `forQuery` produces exactly
the binary-weighting ranking while the invalid-weighting warning is
emitted (never a silent fallback). -/
theorem unknown_scheme_defaults_binary (idx : Index) (tw : String) (q : Query)
    (h1 : tw ≠ "binary") (h2 : tw ≠ "tf") (h3 : tw ≠ "tfidf") :
    forQuery idx tw q = forQuery idx "binary" q
    ∧ forQueryWarns tw = true
    ∧ (∀ tok, (initRetrieve tok idx tw).termWeighting = tw) := by
  refine ⟨?_, ?_, fun tok => rfl⟩
  · unfold forQuery
    rw [if_neg h1, if_neg h2, if_neg h3, if_pos rfl]
  · unfold forQueryWarns
    simp [h1, h2, h3]

theorem unknown_scheme_defaults_binary_witness :
    forQuery exIndex "weird" exQuery = forQuery exIndex "binary" exQuery
    ∧ forQueryWarns "weird" = true
    ∧ (∀ tok, (initRetrieve tok exIndex "weird").termWeighting = "weird") :=
  unknown_scheme_defaults_binary exIndex "weird" exQuery
    (by decide) (by decide) (by decide)

/-- C8: binary-weighted similarity and the ranking depend only on the term
and docid structure, not on frequency magnitudes: two indexes with the same
terms and posting docids but different frequencies give identical scores
and identical rankings for every query. -/
theorem binary_structure_invariant (idx₁ idx₂ : Index)
    (h : stripFreqs idx₁ = stripFreqs idx₂) (q : Query) :
    (∀ d, sim binaryWeighting idx₁ q d = sim binaryWeighting idx₂ q d)
    ∧ forQuery idx₁ "binary" q = forQuery idx₂ "binary" q := by
  refine ⟨strip_sim h q, ?_⟩
  rw [forQuery_eq_rank, forQuery_eq_rank, weightingOf_binary, weightingOf_binary]
  exact strip_rank h q

def exIndexB : Index :=
  [("cat", [(1, 7), (2, 4)]), ("dog", [(2, 9)])]

theorem binary_structure_invariant_witness :
    stripFreqs exIndex = stripFreqs exIndexB
    ∧ ((∀ d, sim binaryWeighting exIndex exQuery d = sim binaryWeighting exIndexB exQuery d)
       ∧ forQuery exIndex "binary" exQuery = forQuery exIndexB "binary" exQuery) :=
  ⟨by decide, binary_structure_invariant exIndex exIndexB (by decide) exQuery⟩

/-- C9: for a fixed frequency, the TF-IDF weight is monotonically
non-increasing in document frequency: of two indexed terms, the one
present in no more documents receives at least as large a weight. -/
theorem tfidf_monotone_df (idx : Index) (t₁ t₂ : String) (f : Nat)
    (h₁ : hasTerm idx t₁ = true) (h₂ : hasTerm idx t₂ = true)
    (hdf₁ : 1 ≤ documentFrequency idx t₁)
    (hle : documentFrequency idx t₁ ≤ documentFrequency idx t₂) :
    tfidfWeighting idx t₂ f ≤ tfidfWeighting idx t₁ f := by
  obtain ⟨ps₁, hps₁⟩ : ∃ ps, lookupTerm idx t₁ = some ps := by
    unfold hasTerm at h₁
    cases hl : lookupTerm idx t₁ with
    | none => rw [hl] at h₁; cases h₁
    | some ps => exact ⟨ps, rfl⟩
  have hne : ps₁ ≠ [] := by
    intro hc
    unfold documentFrequency at hdf₁
    rw [hps₁] at hdf₁
    subst hc
    simp at hdf₁
  have hN : 0 < collectionSizeOf idx := collectionSize_pos hps₁ hne
  unfold tfidfWeighting
  apply mul_le_mul_of_nonneg_left ?_ (Nat.cast_nonneg f)
  have hdf₂ : 0 < documentFrequency idx t₂ := lt_of_lt_of_le hdf₁ hle
  have hNr : (0 : ℝ) < (collectionSizeOf idx : ℝ) := by exact_mod_cast hN
  have h1r : (0 : ℝ) < (documentFrequency idx t₁ : ℝ) := by exact_mod_cast hdf₁
  have h2r : (0 : ℝ) < (documentFrequency idx t₂ : ℝ) := by exact_mod_cast hdf₂
  have hler : (documentFrequency idx t₁ : ℝ) ≤ (documentFrequency idx t₂ : ℝ) := by
    exact_mod_cast hle
  apply (Real.log_le_log_iff (div_pos hNr h2r) (div_pos hNr h1r)).mpr
  exact div_le_div_of_nonneg_left (le_of_lt hNr) h1r hler

def rIndex : Index :=
  [("rare", [(1, 1)]), ("common", [(1, 1), (2, 1)])]

theorem tfidf_monotone_df_witness :
    tfidfWeighting rIndex "common" 3 ≤ tfidfWeighting rIndex "rare" 3 :=
  tfidf_monotone_df rIndex "rare" "common" 3
    (by decide) (by decide) (by decide) (by decide)

/-- C10: the list returned by `forQuery` is exactly a permutation of the
candidate set: each candidate appears exactly once (no omissions, no
duplicates). -/
theorem forQuery_perm_candidates (idx : Index) (tw : String) (q : Query) (l : List Nat)
    (h : forQuery idx tw q = some l) :
    l.Perm (findRelated idx q) ∧ l.Nodup ∧ (∀ d, d ∈ l ↔ isCandidate idx q d) := by
  rw [forQuery_eq_rank] at h
  have hp := rank_perm h
  refine ⟨hp, ?_, ?_⟩
  · exact hp.symm.nodup (by unfold findRelated; exact List.nodup_dedup _)
  · intro d
    rw [hp.mem_iff, mem_findRelated]

theorem forQuery_perm_candidates_witness :
    ([1, 2] : List Nat).Perm (findRelated exIndex exQuery)
    ∧ ([1, 2] : List Nat).Nodup
    ∧ (∀ d, d ∈ ([1, 2] : List Nat) ↔ isCandidate exIndex exQuery d) :=
  forQuery_perm_candidates exIndex "binary" exQuery [1, 2] exForQuery

end MyRetriever
